import Mathlib

/-!
Verification development for the llmdoc repository.

Text is modelled as `List Char` (Python `str`), machine integers as `Nat`
(byte/char offsets are non-negative everywhere in the modelled code), the
wall clock as an explicit `Nat` input, SHA-256 as an explicit hash-function
parameter, and BM25 scores (produced by the external `rank_bm25` library)
as an explicit `ℚ`-valued score vector.  Every definition is translated
from the corresponding function in `src/llmdoc`, except where a doc comment
says `Modelled from the spec:`.
-/

namespace LlmDoc

/-- Python whitespace test for `str.strip` / `\s` on ASCII text. -/
def pyIsSpace (c : Char) : Bool :=
  c == ' ' || c == '\t' || c == '\n' || c == '\r' || c == '\x0b' || c == '\x0c'

/-- Python `s.strip()`: drop whitespace at both ends. -/
def py_strip (l : List Char) : List Char :=
  ((l.dropWhile pyIsSpace).reverse.dropWhile pyIsSpace).reverse

/-- Python `s[a:b]` for `0 ≤ a, b`. -/
def py_slice (l : List Char) (a b : Nat) : List Char :=
  (l.drop a).take (b - a)

/-- Occurrence test: `sep` occurs in `text` at index `i`. -/
def matchesAt (text sep : List Char) (i : Nat) : Bool :=
  (text.drop i).take sep.length == sep

/-- Python `text.rfind(sep, s, e)`: the largest `i` with `s ≤ i`,
`i + len(sep) ≤ e` and an occurrence of `sep` at `i`, as an `Option`
(`none` plays the role of `-1`). -/
def py_rfind (text sep : List Char) (s e : Nat) : Option Nat :=
  ((List.range e).filter
    (fun i => decide (s ≤ i) && decide (i + sep.length ≤ e) && matchesAt text sep i)).getLast?

/-- The six separators of `SENTENCE_BOUNDARIES` in `indexer.py`, in source order. -/
def SENTENCE_BOUNDARIES : List (List Char) :=
  [".\n".data, ". ".data, "!\n".data, "! ".data, "?\n".data, "? ".data]

/-- The separator loop of `_find_sentence_boundary` (indexer.py): for each
separator in order, take the rightmost occurrence in `[s, e)`; if it is
strictly after `s`, return the position just past it, else try the next
separator; fall back to `e`. -/
def fsb_go (text : List Char) (s e : Nat) : List (List Char) → Nat
  | [] => e
  | sep :: rest =>
    match py_rfind text sep s e with
    | some i => if s < i then i + sep.length else fsb_go text s e rest
    | none => fsb_go text s e rest

/-- Model of `_find_sentence_boundary(text, start, end)` from indexer.py. -/
def find_sentence_boundary (text : List Char) (s e : Nat) : Nat :=
  fsb_go text s e SENTENCE_BOUNDARIES

/-- Index of the last `'\n'` in a list, if any. -/
def lastIdxOfNewline : List Char → Option Nat
  | [] => none
  | c :: rest =>
    match lastIdxOfNewline rest with
    | some j => some (j + 1)
    | none => if c = '\n' then some 0 else none

/-- Length of the regex match of `\n\s*\n` (PARAGRAPH_PATTERN) at the head of
the list, if it matches there: a `'\n'`, then greedily as much whitespace as
possible still followed by a `'\n'` (so: the last newline inside the
whitespace run after the first newline). -/
def sepMatchLen : List Char → Option Nat
  | [] => none
  | c :: rest =>
    if c = '\n' then (lastIdxOfNewline (rest.takeWhile pyIsSpace)).map (· + 2)
    else none

/-- Model of `PARAGRAPH_PATTERN.finditer`: the `(start, end)` spans of the
non-overlapping, leftmost matches of `\n\s*\n`, scanning a suffix of the
text that sits at absolute position `i`.  Fuelled (fuel decreases by at
least one character per step; `findSeps` supplies enough). -/
def findSepsF : Nat → List Char → Nat → List (Nat × Nat)
  | 0, _, _ => []
  | _ + 1, [], _ => []
  | fuel + 1, c :: rest, i =>
    match sepMatchLen (c :: rest) with
    | some m => (i, i + m) :: findSepsF fuel (List.drop (m - 1) rest) (i + m)
    | none => findSepsF fuel rest (i + 1)

/-- All matches of `\n\s*\n` in `l` with their spans. -/
def findSeps (l : List Char) : List (Nat × Nat) :=
  findSepsF l.length l 0

/-- Loop body of the region computation in `_chunk_document` (indexer.py
lines 325-328): `if match.start() > last_end: append (last_end, match.start());
last_end := match.end()`. -/
def para_fold_step (st : List (Nat × Nat) × Nat) (m : Nat × Nat) : List (Nat × Nat) × Nat :=
  (if st.2 < m.1 then st.1 ++ [(st.2, m.1)] else st.1, m.2)

/-- The paragraph-position computation of `BM25Index._chunk_document`
(indexer.py lines 322-334): regions between separator matches, a trailing
region, and the degenerate whole-text region when nothing was found but the
content is not all whitespace. -/
def paragraph_positions (content : List Char) : List (Nat × Nat) :=
  let st := (findSeps content).foldl para_fold_step ([], 0)
  let ps := if st.2 < content.length then st.1 ++ [(st.2, content.length)] else st.1
  if ps.isEmpty && !(py_strip content).isEmpty then [(0, content.length)] else ps

/-- A chunk as produced by the chunker: content plus half-open positions
into the parent document's content. -/
structure ChunkSpan where
  content : List Char
  start_pos : Nat
  end_pos : Nat
deriving DecidableEq, Repr

/-- The tentative-then-adjusted inner cut of the oversized-paragraph loop
(indexer.py lines 363-366). -/
def inner_end_at (chunk_size : Nat) (para : List Char) (inner_start : Nat) : Nat :=
  let ie := min (inner_start + chunk_size) para.length
  if ie < para.length then find_sentence_boundary para inner_start ie else ie

/-- The advance of the oversized-paragraph loop (indexer.py lines 374-377):
`inner_end - chunk_overlap`, clamped to `inner_end` when that would not move
strictly forward. -/
def next_start_at (chunk_size chunk_overlap : Nat) (para : List Char) (inner_start : Nat) : Nat :=
  let ie := inner_end_at chunk_size para inner_start
  if ie - chunk_overlap ≤ inner_start then ie else ie - chunk_overlap

/-- The `while inner_start < len(para)` loop of `_chunk_document`
(indexer.py lines 362-377).  Fuelled; `para.length + 1` suffices whenever
`chunk_size ≥ 1` because the advance strictly increases. -/
def inner_loop (chunk_size chunk_overlap : Nat) (para : List Char) (para_start_pos : Nat) :
    Nat → Nat → List ChunkSpan
  | 0, _ => []
  | fuel + 1, inner_start =>
    if inner_start < para.length then
      let inner_end := inner_end_at chunk_size para inner_start
      let chunk_text := py_slice para inner_start inner_end
      let rest := inner_loop chunk_size chunk_overlap para para_start_pos fuel
        (next_start_at chunk_size chunk_overlap para inner_start)
      if (py_strip chunk_text).isEmpty then rest
      else ⟨chunk_text, para_start_pos + inner_start, para_start_pos + inner_end⟩ :: rest
    else []

/-- The paragraph-accumulation loop of `_chunk_document` (indexer.py lines
336-384), including the trailing emit of the running chunk. -/
def accum_loop (chunk_size chunk_overlap : Nat) (content : List Char) :
    List (Nat × Nat) → List Char → Nat → Nat → List ChunkSpan
  | [], cur, curS, curE => if cur.isEmpty then [] else [⟨cur, curS, curE⟩]
  | (ps, pe) :: rest, cur, curS, curE =>
    let para := py_strip (py_slice content ps pe)
    if para.isEmpty then accum_loop chunk_size chunk_overlap content rest cur curS curE
    else if cur.length + para.length + 2 ≤ chunk_size then
      let cur' := if cur.isEmpty then para else cur ++ '\n' :: '\n' :: para
      let curS' := if cur.isEmpty then ps else curS
      accum_loop chunk_size chunk_overlap content rest cur' curS' (ps + para.length)
    else
      let emitted : List ChunkSpan := if cur.isEmpty then [] else [⟨cur, curS, curE⟩]
      if para.length ≤ chunk_size then
        emitted ++ accum_loop chunk_size chunk_overlap content rest para ps (ps + para.length)
      else
        emitted ++ inner_loop chunk_size chunk_overlap para ps (para.length + 1) 0
          ++ accum_loop chunk_size chunk_overlap content rest [] 0 0

/-- Model of `BM25Index._chunk_document` (indexer.py lines 307-389) restricted to the
position-and-content computation: paragraph splitting, greedy accumulation
with `"\n\n"` joiners, oversized-paragraph splitting, and the degenerate
single-chunk fallback. -/
def chunk_document (chunk_size chunk_overlap : Nat) (content : List Char) : List ChunkSpan :=
  let chunks := accum_loop chunk_size chunk_overlap content (paragraph_positions content) [] 0 0
  if chunks.isEmpty && !(py_strip content).isEmpty then
    [⟨py_strip content, 0, (py_strip content).length⟩]
  else chunks

/-! ### Facts about `py_rfind` and `find_sentence_boundary` -/

lemma getLast?_mem_of_eq_some : ∀ {l : List Nat} {a : Nat}, l.getLast? = some a → a ∈ l
  | [x], a, h => by simp [List.getLast?] at h; simp [h]
  | x :: y :: t, a, h => by
    rw [List.getLast?_cons_cons] at h
    exact List.mem_cons_of_mem x (getLast?_mem_of_eq_some h)

lemma cons_getLast?_ne_none (x : Nat) (t : List Nat) : (x :: t).getLast? ≠ none := by
  induction t generalizing x with
  | nil => simp [List.getLast?]
  | cons y t ih => rw [List.getLast?_cons_cons]; exact ih y

lemma sorted_le_getLast? : ∀ {l : List Nat}, l.Pairwise (· < ·) →
    ∀ {x y : Nat}, x ∈ l → l.getLast? = some y → x ≤ y
  | [x'], hp, x, y, hx, hy => by
    simp [List.getLast?] at hy
    simp at hx
    omega
  | a :: b :: t, hp, x, y, hx, hy => by
    rw [List.getLast?_cons_cons] at hy
    rcases List.mem_cons.mp hx with rfl | hx'
    · have hy' := getLast?_mem_of_eq_some hy
      exact le_of_lt ((List.pairwise_cons.mp hp).1 y hy')
    · exact sorted_le_getLast? (List.pairwise_cons.mp hp).2 hx' hy

/-- Membership characterisation of the candidate list inside `py_rfind`. -/
lemma mem_rfind_list {text sep : List Char} {s e j : Nat} :
    j ∈ (List.range e).filter
        (fun i => decide (s ≤ i) && decide (i + sep.length ≤ e) && matchesAt text sep i) ↔
      j < e ∧ s ≤ j ∧ j + sep.length ≤ e ∧ matchesAt text sep j = true := by
  rw [List.mem_filter, List.mem_range]
  simp [Bool.and_eq_true, and_assoc]

lemma py_rfind_eq_some {text sep : List Char} {s e i : Nat}
    (h : py_rfind text sep s e = some i) :
    s ≤ i ∧ i + sep.length ≤ e ∧ matchesAt text sep i = true := by
  have hi := getLast?_mem_of_eq_some h
  have := mem_rfind_list.mp hi
  exact ⟨this.2.1, this.2.2.1, this.2.2.2⟩

lemma py_rfind_max {text sep : List Char} {s e i : Nat}
    (h : py_rfind text sep s e = some i) (hsep : 0 < sep.length) :
    ∀ j, s ≤ j → j + sep.length ≤ e → matchesAt text sep j = true → j ≤ i := by
  intro j hsj hje hm
  have hjlt : j < e := by omega
  have hjmem : j ∈ (List.range e).filter
      (fun i => decide (s ≤ i) && decide (i + sep.length ≤ e) && matchesAt text sep i) :=
    mem_rfind_list.mpr ⟨hjlt, hsj, hje, hm⟩
  exact sorted_le_getLast? ((List.pairwise_lt_range e).filter _) hjmem h

lemma py_rfind_eq_none {text sep : List Char} {s e : Nat}
    (h : py_rfind text sep s e = none) :
    ∀ j, s ≤ j → j + sep.length ≤ e → j < e → matchesAt text sep j = false := by
  intro j hsj hje hjlt
  by_contra hm
  have hm' : matchesAt text sep j = true := by
    cases hmm : matchesAt text sep j with
    | false => exact absurd hmm hm
    | true => rfl
  have hjmem := mem_rfind_list.mpr ⟨hjlt, hsj, hje, hm'⟩
  unfold py_rfind at h
  rcases hl : (List.range e).filter
      (fun i => decide (s ≤ i) && decide (i + sep.length ≤ e) && matchesAt text sep i) with
    _ | ⟨x, t⟩
  · rw [hl] at hjmem; exact absurd hjmem (List.not_mem_nil j)
  · rw [hl] at h; exact absurd h (cons_getLast?_ne_none x t)

lemma fsb_go_gt {text : List Char} {s e : Nat} (hse : s < e) :
    ∀ seps, s < fsb_go text s e seps
  | [] => hse
  | sep :: rest => by
    unfold fsb_go
    cases h : py_rfind text sep s e with
    | none => exact fsb_go_gt hse rest
    | some i =>
      by_cases hsi : s < i
      · simp only [if_pos hsi]; omega
      · simp only [if_neg hsi]; exact fsb_go_gt hse rest

lemma fsb_go_le {text : List Char} {s e : Nat} :
    ∀ seps, fsb_go text s e seps ≤ e
  | [] => le_refl e
  | sep :: rest => by
    unfold fsb_go
    cases h : py_rfind text sep s e with
    | none => exact fsb_go_le rest
    | some i =>
      by_cases hsi : s < i
      · simp only [if_pos hsi]; exact (py_rfind_eq_some h).2.1
      · simp only [if_neg hsi]; exact fsb_go_le rest

lemma find_sentence_boundary_gt {text : List Char} {s e : Nat} (hse : s < e) :
    s < find_sentence_boundary text s e :=
  fsb_go_gt hse SENTENCE_BOUNDARIES

lemma find_sentence_boundary_le {text : List Char} {s e : Nat} :
    find_sentence_boundary text s e ≤ e :=
  fsb_go_le SENTENCE_BOUNDARIES

/-! ### Progress of the oversized-paragraph loop -/

lemma inner_end_at_gt {chunk_size : Nat} {para : List Char} {s : Nat}
    (hcs : 1 ≤ chunk_size) (h : s < para.length) : s < inner_end_at chunk_size para s := by
  unfold inner_end_at
  have hlt : s < min (s + chunk_size) para.length := lt_min (by omega) h
  by_cases hie : min (s + chunk_size) para.length < para.length
  · simp only [if_pos hie]; exact find_sentence_boundary_gt hlt
  · simp only [if_neg hie]; exact hlt

lemma inner_end_at_le {chunk_size : Nat} {para : List Char} {s : Nat} :
    inner_end_at chunk_size para s ≤ para.length := by
  unfold inner_end_at
  by_cases hie : min (s + chunk_size) para.length < para.length
  · simp only [if_pos hie]
    exact le_trans find_sentence_boundary_le (min_le_right _ _)
  · simp only [if_neg hie]; exact min_le_right _ _

lemma next_start_at_gt {chunk_size chunk_overlap : Nat} {para : List Char} {s : Nat}
    (hcs : 1 ≤ chunk_size) (h : s < para.length) :
    s < next_start_at chunk_size chunk_overlap para s := by
  unfold next_start_at
  have hie := @inner_end_at_gt chunk_size para s hcs h
  by_cases hc : inner_end_at chunk_size para s - chunk_overlap ≤ s
  · simp only [if_pos hc]; exact hie
  · simp only [if_neg hc]; omega

/-- The fuelled inner loop is fuel-insensitive once the fuel exceeds the
remaining distance, because the advance strictly increases. -/
lemma inner_loop_fuel_congr {chunk_size chunk_overlap : Nat} {para : List Char}
    {para_start_pos : Nat} (hcs : 1 ≤ chunk_size) :
    ∀ (n s f₁ f₂ : Nat), para.length - s ≤ n →
      para.length - s < f₁ → para.length - s < f₂ →
      inner_loop chunk_size chunk_overlap para para_start_pos f₁ s =
        inner_loop chunk_size chunk_overlap para para_start_pos f₂ s := by
  intro n
  induction n with
  | zero =>
    intro s f₁ f₂ h0 h1 h2
    obtain ⟨a, rfl⟩ : ∃ a, f₁ = a + 1 := ⟨f₁ - 1, by omega⟩
    obtain ⟨b, rfl⟩ : ∃ b, f₂ = b + 1 := ⟨f₂ - 1, by omega⟩
    have hns : ¬ s < para.length := by omega
    simp [inner_loop, hns]
  | succ n ih =>
    intro s f₁ f₂ hn h1 h2
    obtain ⟨a, rfl⟩ : ∃ a, f₁ = a + 1 := ⟨f₁ - 1, by omega⟩
    obtain ⟨b, rfl⟩ : ∃ b, f₂ = b + 1 := ⟨f₂ - 1, by omega⟩
    by_cases hs : s < para.length
    · have hadv := @next_start_at_gt chunk_size chunk_overlap para s hcs hs
      have hrec := ih (next_start_at chunk_size chunk_overlap para s) a b
        (by omega) (by omega) (by omega)
      simp only [inner_loop, if_pos hs, hrec]
    · simp [inner_loop, hs]

lemma fsb_go_spec (text : List Char) (s e : Nat) :
    ∀ seps : List (List Char), (∀ sep ∈ seps, 0 < sep.length) →
      (fsb_go text s e seps = e ∧
        ∀ sep ∈ seps, ∀ j, s < j → j + sep.length ≤ e → matchesAt text sep j = false) ∨
      (∃ pre sep post, seps = pre ++ sep :: post ∧
        (∀ sep' ∈ pre, ∀ j, s < j → j + sep'.length ≤ e → matchesAt text sep' j = false) ∧
        ∃ i, s < i ∧ i + sep.length ≤ e ∧ matchesAt text sep i = true ∧
          fsb_go text s e seps = i + sep.length ∧
          ∀ j, s < j → j + sep.length ≤ e → matchesAt text sep j = true → j ≤ i)
  | [], _ => Or.inl ⟨rfl, by simp⟩
  | sep :: rest, hpos => by
    have hsep : 0 < sep.length := hpos sep (List.mem_cons_self sep rest)
    have hrest : ∀ s' ∈ rest, 0 < s'.length := fun s' hs' => hpos s' (List.mem_cons_of_mem _ hs')
    unfold fsb_go
    cases h : py_rfind text sep s e with
    | none =>
      have hnone : ∀ j, s < j → j + sep.length ≤ e → matchesAt text sep j = false := by
        intro j hj hje
        exact py_rfind_eq_none h j (by omega) hje (by omega)
      rcases fsb_go_spec text s e rest hrest with ⟨heq, hno⟩ |
        ⟨pre, sep', post, heqs, hpre, i, hi⟩
      · left
        refine ⟨heq, ?_⟩
        intro sep' hmem' j hj hje
        rcases List.mem_cons.mp hmem' with rfl | hmem'
        · exact hnone j hj hje
        · exact hno sep' hmem' j hj hje
      · right
        refine ⟨sep :: pre, sep', post, by rw [heqs, List.cons_append], ?_, i, hi⟩
        intro sep'' hmem'' j hj hje
        rcases List.mem_cons.mp hmem'' with rfl | hmem''
        · exact hnone j hj hje
        · exact hpre sep'' hmem'' j hj hje
    | some i =>
      by_cases hsi : s < i
      · simp only [if_pos hsi]
        obtain ⟨-, hie, hm⟩ := py_rfind_eq_some h
        right
        refine ⟨[], sep, rest, rfl, by simp, i, hsi, hie, hm, rfl, ?_⟩
        intro j hj hje hmj
        exact py_rfind_max h hsep j (by omega) hje hmj
      · simp only [if_neg hsi]
        have hnone : ∀ j, s < j → j + sep.length ≤ e → matchesAt text sep j = false := by
          intro j hj hje
          by_contra hmj
          have hmj' : matchesAt text sep j = true := by
            cases hmm : matchesAt text sep j with
            | false => exact absurd hmm hmj
            | true => rfl
          have := py_rfind_max h hsep j (by omega) hje hmj'
          omega
        rcases fsb_go_spec text s e rest hrest with ⟨heq, hno⟩ |
          ⟨pre, sep', post, heqs, hpre, i', hi'⟩
        · left
          refine ⟨heq, ?_⟩
          intro sep' hmem' j hj hje
          rcases List.mem_cons.mp hmem' with rfl | hmem'
          · exact hnone j hj hje
          · exact hno sep' hmem' j hj hje
        · right
          refine ⟨sep :: pre, sep', post, by rw [heqs, List.cons_append], ?_, i', hi'⟩
          intro sep'' hmem'' j hj hje
          rcases List.mem_cons.mp hmem'' with rfl | hmem''
          · exact hnone j hj hje
          · exact hpre sep'' hmem'' j hj hje

/-- C4 (amended): when the tentative cut is adjusted,
`_find_sentence_boundary` returns either the hard cut `e` — and then no
separator of `SENTENCE_BOUNDARIES` occurs strictly after `s` inside the
window — or the position just after the rightmost in-window occurrence,
strictly after `s`, of the FIRST separator in the fixed source order
`".\n"`, `". "`, `"!\n"`, `"! "`, `"?\n"`, `"? "` that has such an
occurrence: the list splits as `pre ++ sep :: post` where every
earlier-listed separator in `pre` has no in-window occurrence strictly
after `s`, and the cut is the rightmost such occurrence of `sep` itself.
Later-listed separators may occur further right and are ignored, which is
what refutes the original claim. -/
theorem find_sentence_boundary_characterisation (text : List Char) (s e : Nat) :
    (find_sentence_boundary text s e = e ∧
      ∀ sep ∈ SENTENCE_BOUNDARIES, ∀ j, s < j → j + sep.length ≤ e →
        matchesAt text sep j = false) ∨
    (∃ pre sep post, SENTENCE_BOUNDARIES = pre ++ sep :: post ∧
      (∀ sep' ∈ pre, ∀ j, s < j → j + sep'.length ≤ e → matchesAt text sep' j = false) ∧
      ∃ i, s < i ∧ i + sep.length ≤ e ∧ matchesAt text sep i = true ∧
        find_sentence_boundary text s e = i + sep.length ∧
        ∀ j, s < j → j + sep.length ≤ e → matchesAt text sep j = true → j ≤ i) :=
  fsb_go_spec text s e SENTENCE_BOUNDARIES (by decide)

/-- C4 counterexample: on `"x.\nyy! zzzzz"` with window `(0, 8]` the code
returns `3` (rightmost `".\n"` occurrence), although the separator `"! "`
also occurs at index `5`, giving the strictly larger sentence boundary `7`
inside the window: the cut is not moved to the last sentence boundary. -/
theorem find_sentence_boundary_not_rightmost :
    find_sentence_boundary ("x.\nyy! zzzzz".data) 0 8 = 3 ∧
    "! ".data ∈ SENTENCE_BOUNDARIES ∧
    matchesAt ("x.\nyy! zzzzz".data) ("! ".data) 5 = true ∧
    0 < 5 ∧ 5 + ("! ".data).length ≤ 8 ∧
    3 < 5 + ("! ".data).length := by
  decide

/-- C9: the advance of the oversized-paragraph split loop strictly
increases `inner_start` on every iteration (for any `chunk_overlap`,
including `chunk_overlap ≥ chunk_size`), and consequently the loop
terminates: its fuelled form is insensitive to any fuel larger than the
paragraph length. -/
theorem chunker_inner_loop_progress (chunk_size chunk_overlap : Nat) (para : List Char)
    (para_start_pos inner_start : Nat) (hcs : 1 ≤ chunk_size)
    (h : inner_start < para.length) :
    inner_start < next_start_at chunk_size chunk_overlap para inner_start ∧
    ∀ f₁ f₂, para.length < f₁ → para.length < f₂ →
      inner_loop chunk_size chunk_overlap para para_start_pos f₁ 0 =
        inner_loop chunk_size chunk_overlap para para_start_pos f₂ 0 := by
  refine ⟨next_start_at_gt hcs h, ?_⟩
  intro f₁ f₂ h₁ h₂
  exact inner_loop_fuel_congr hcs para.length 0 f₁ f₂ (by omega) (by omega) (by omega)

/-- Witness for C9 at `chunk_size = 1`, `chunk_overlap = 0`, `para = ['a']`,
`inner_start = 0`. -/
theorem chunker_inner_loop_progress_witness :
    0 < next_start_at 1 0 (['a']) 0 :=
  (chunker_inner_loop_progress 1 0 ['a'] 0 0 (by decide) (by decide)).1

/-! ### Position bounds of the chunker -/

lemma length_dropWhile_le (p : Char → Bool) : ∀ l : List Char, (l.dropWhile p).length ≤ l.length
  | [] => le_refl 0
  | c :: rest => by
    cases h : p c with
    | true => simp only [List.dropWhile, h]; exact le_trans (length_dropWhile_le p rest) (by simp)
    | false => simp [List.dropWhile, h]

lemma length_takeWhile_le (p : Char → Bool) : ∀ l : List Char, (l.takeWhile p).length ≤ l.length
  | [] => le_refl 0
  | c :: rest => by
    cases h : p c with
    | true => simp only [List.takeWhile, h]; simpa using length_takeWhile_le p rest
    | false => simp [List.takeWhile, h]

lemma py_strip_length_le (l : List Char) : (py_strip l).length ≤ l.length := by
  unfold py_strip
  have h1 := length_dropWhile_le pyIsSpace l
  have h2 := length_dropWhile_le pyIsSpace (l.dropWhile pyIsSpace).reverse
  simp only [List.length_reverse] at *
  omega

lemma py_slice_length_le (l : List Char) (a b : Nat) : (py_slice l a b).length ≤ b - a := by
  unfold py_slice
  rw [List.length_take]
  exact min_le_left _ _

lemma lastIdxOfNewline_lt : ∀ {l : List Char} {k : Nat}, lastIdxOfNewline l = some k → k < l.length
  | [], k, h => by simp [lastIdxOfNewline] at h
  | c :: rest, k, h => by
    unfold lastIdxOfNewline at h
    cases h' : lastIdxOfNewline rest with
    | some j =>
      rw [h'] at h
      have := lastIdxOfNewline_lt h'
      simp only [Option.some.injEq] at h
      simp [← h]
      omega
    | none =>
      rw [h'] at h
      by_cases hc : c = '\n'
      · simp only [if_pos hc, Option.some.injEq] at h
        simp [← h]
      · simp [if_neg hc] at h

lemma sepMatchLen_bounds : ∀ {l : List Char} {m : Nat}, sepMatchLen l = some m →
    2 ≤ m ∧ m ≤ l.length
  | [], m, h => by simp [sepMatchLen] at h
  | c :: rest, m, h => by
    unfold sepMatchLen at h
    by_cases hc : c = '\n'
    · simp only [if_pos hc, Option.map_eq_some'] at h
      obtain ⟨k, hk, rfl⟩ := h
      have h1 := lastIdxOfNewline_lt hk
      have h2 := length_takeWhile_le pyIsSpace rest
      simp only [List.length_cons]
      omega
    · simp [if_neg hc] at h

/-- Chained well-formedness of separator matches: starts at or after `b`,
strictly increasing spans, ends within `len`. -/
def SepsOK (len : Nat) : List (Nat × Nat) → Nat → Prop
  | [], _ => True
  | (s, e) :: rest, b => b ≤ s ∧ s < e ∧ e ≤ len ∧ SepsOK len rest e

lemma sepsOK_mono_base {len : Nat} : ∀ {l : List (Nat × Nat)} {b b' : Nat},
    SepsOK len l b → b' ≤ b → SepsOK len l b'
  | [], _, _, _, _ => trivial
  | (s, e) :: rest, b, b', h, hb => by
    simp only [SepsOK] at h ⊢
    exact ⟨by omega, h.2⟩

lemma findSepsF_ok : ∀ (fuel : Nat) (l : List Char) (i : Nat),
    SepsOK (i + l.length) (findSepsF fuel l i) i := by
  intro fuel
  induction fuel with
  | zero => intro l i; simp [findSepsF, SepsOK]
  | succ fuel ih =>
    intro l i
    cases l with
    | nil => simp [findSepsF, SepsOK]
    | cons c rest =>
      cases hm : sepMatchLen (c :: rest) with
      | none =>
        simp only [findSepsF, hm]
        have h := ih rest (i + 1)
        have hlen : i + (c :: rest).length = (i + 1) + rest.length := by
          simp [List.length_cons]; omega
        rw [hlen]
        exact sepsOK_mono_base h (by omega)
      | some m =>
        obtain ⟨hm2, hmle⟩ := sepMatchLen_bounds hm
        simp only [List.length_cons] at hmle
        simp only [findSepsF, hm]
        have h := ih (List.drop (m - 1) rest) (i + m)
        have hlen : (i + m) + (List.drop (m - 1) rest).length = i + (c :: rest).length := by
          simp [List.length_drop, List.length_cons]; omega
        simp only [SepsOK]
        refine ⟨le_refl i, by omega, by simp [List.length_cons]; omega, ?_⟩
        rw [← hlen]
        exact h

/-- Chained well-formedness of paragraph regions between `lo` and `hi`. -/
def RegionsBetween (len : Nat) : Nat → List (Nat × Nat) → Nat → Prop
  | lo, [], hi => lo ≤ hi
  | lo, (s, e) :: rest, hi => lo ≤ s ∧ s ≤ e ∧ e ≤ len ∧ RegionsBetween len e rest hi

lemma regionsBetween_mono_hi {len : Nat} : ∀ {l : List (Nat × Nat)} {lo hi hi' : Nat},
    RegionsBetween len lo l hi → hi ≤ hi' → RegionsBetween len lo l hi'
  | [], lo, hi, hi', h, hh => by simp only [RegionsBetween] at h ⊢; omega
  | (s, e) :: rest, lo, hi, hi', h, hh => by
    simp only [RegionsBetween] at h ⊢
    exact ⟨h.1, h.2.1, h.2.2.1, regionsBetween_mono_hi h.2.2.2 hh⟩

lemma regionsBetween_snoc {len : Nat} : ∀ {acc : List (Nat × Nat)} {lo p q hi : Nat},
    RegionsBetween len lo acc p → p ≤ q → q ≤ len → q ≤ hi →
    RegionsBetween len lo (acc ++ [(p, q)]) hi
  | [], lo, p, q, hi, h, hpq, hql, hqh => by
    simp only [RegionsBetween, List.nil_append] at h ⊢
    exact ⟨h, hpq, hql, hqh⟩
  | (s, e) :: rest, lo, p, q, hi, h, hpq, hql, hqh => by
    simp only [RegionsBetween, List.cons_append] at h ⊢
    exact ⟨h.1, h.2.1, h.2.2.1, regionsBetween_snoc h.2.2.2 hpq hql hqh⟩

lemma para_fold_ok {len : Nat} : ∀ (seps acc : List (Nat × Nat)) (le : Nat),
    SepsOK len seps le → RegionsBetween len 0 acc le → le ≤ len →
    RegionsBetween len 0 (seps.foldl para_fold_step (acc, le)).1
        (seps.foldl para_fold_step (acc, le)).2 ∧
      (seps.foldl para_fold_step (acc, le)).2 ≤ len
  | [], acc, le, _, hacc, hle => ⟨hacc, hle⟩
  | (s, e) :: rest, acc, le, hseps, hacc, hle => by
    simp only [SepsOK] at hseps
    obtain ⟨hls, hse, hel, hrest⟩ := hseps
    rw [List.foldl_cons]
    by_cases hlt : le < s
    · have hstep : para_fold_step (acc, le) (s, e) = (acc ++ [(le, s)], e) := by
        simp [para_fold_step, hlt]
      rw [hstep]
      exact para_fold_ok rest (acc ++ [(le, s)]) e hrest
        (regionsBetween_snoc hacc (by omega) (by omega) (by omega)) (by omega)
    · have hstep : para_fold_step (acc, le) (s, e) = (acc, e) := by
        simp [para_fold_step, hlt]
      rw [hstep]
      exact para_fold_ok rest acc e hrest
        (regionsBetween_mono_hi hacc (by omega)) (by omega)

lemma paragraph_positions_ok (content : List Char) :
    RegionsBetween content.length 0 (paragraph_positions content) content.length := by
  have h0 : SepsOK content.length (findSeps content) 0 := by
    have := findSepsF_ok content.length content 0
    simpa using this
  have hfold := @para_fold_ok content.length (findSeps content) [] 0 h0
    (by simp [RegionsBetween]) (by omega)
  simp only [paragraph_positions]
  obtain ⟨hreg, hle⟩ := hfold
  have hps : ∀ (ps : List (Nat × Nat)), RegionsBetween content.length 0 ps content.length →
      RegionsBetween content.length 0
        (if ps.isEmpty && !(py_strip content).isEmpty then [(0, content.length)] else ps)
        content.length := by
    intro ps h
    by_cases hc : (ps.isEmpty && !(py_strip content).isEmpty) = true
    · simp only [if_pos hc]
      simp [RegionsBetween]
    · simp only [if_neg hc]
      exact h
  apply hps
  by_cases h2 : ((findSeps content).foldl para_fold_step ([], 0)).2 < content.length
  · simp only [if_pos h2]
    exact regionsBetween_snoc hreg (by omega) (le_refl _) (le_refl _)
  · simp only [if_neg h2]
    exact regionsBetween_mono_hi hreg (by omega)

lemma inner_loop_bounds {chunk_size chunk_overlap : Nat} {para : List Char} {ps len : Nat}
    (hcs : 1 ≤ chunk_size) (hlen : ps + para.length ≤ len) :
    ∀ (fuel s : Nat), ∀ ch ∈ inner_loop chunk_size chunk_overlap para ps fuel s,
      ch.start_pos < ch.end_pos ∧ ch.end_pos ≤ len := by
  intro fuel
  induction fuel with
  | zero => intro s ch hch; simp [inner_loop] at hch
  | succ fuel ih =>
    intro s ch hch
    by_cases hs : s < para.length
    · simp only [inner_loop, if_pos hs] at hch
      by_cases hemp : (py_strip (py_slice para s (inner_end_at chunk_size para s))).isEmpty
      · rw [if_pos hemp] at hch
        exact ih _ ch hch
      · rw [if_neg hemp] at hch
        rcases List.mem_cons.mp hch with rfl | hch'
        · have h1 := @inner_end_at_gt chunk_size para s hcs hs
          have h2 := @inner_end_at_le chunk_size para s
          exact ⟨by simp; omega, by simp; omega⟩
        · exact ih _ ch hch'
    · simp [inner_loop, hs] at hch

lemma accum_loop_bounds {chunk_size chunk_overlap : Nat} {content : List Char}
    (hcs : 1 ≤ chunk_size) :
    ∀ (paras : List (Nat × Nat)) (cur : List Char) (curS curE b : Nat),
      RegionsBetween content.length b paras content.length →
      (cur ≠ [] → curS < curE ∧ curE ≤ content.length ∧ curE ≤ b) →
      ∀ ch ∈ accum_loop chunk_size chunk_overlap content paras cur curS curE,
        ch.start_pos < ch.end_pos ∧ ch.end_pos ≤ content.length := by
  intro paras
  induction paras with
  | nil =>
    intro cur curS curE b _ hcur ch hch
    simp only [accum_loop] at hch
    by_cases hce : cur.isEmpty
    · rw [if_pos hce] at hch; simp at hch
    · rw [if_neg hce] at hch
      have hne : cur ≠ [] := by simpa [List.isEmpty_iff] using hce
      have := hcur hne
      simp only [List.mem_singleton] at hch
      subst hch
      exact ⟨this.1, this.2.1⟩
  | cons pr rest ih =>
    obtain ⟨ps, pe⟩ := pr
    intro cur curS curE b hreg hcur ch hch
    simp only [RegionsBetween] at hreg
    obtain ⟨hbs, hspe, hpel, hrest⟩ := hreg
    simp only [accum_loop] at hch
    have hparalen : (py_strip (py_slice content ps pe)).length ≤ pe - ps :=
      le_trans (py_strip_length_le _) (py_slice_length_le content ps pe)
    by_cases hpemp : (py_strip (py_slice content ps pe)).isEmpty
    · rw [if_pos hpemp] at hch
      refine ih cur curS curE pe hrest ?_ ch hch
      intro hne
      have := hcur hne
      exact ⟨this.1, this.2.1, by omega⟩
    · rw [if_neg hpemp] at hch
      have hpnil : py_strip (py_slice content ps pe) ≠ [] := by
        simpa [List.isEmpty_iff] using hpemp
      have hplen : 0 < (py_strip (py_slice content ps pe)).length :=
        List.length_pos.mpr hpnil
      by_cases hfits : cur.length + (py_strip (py_slice content ps pe)).length + 2 ≤ chunk_size
      · rw [if_pos hfits] at hch
        by_cases hce : cur.isEmpty
        · simp only [if_pos hce] at hch
          refine ih _ _ _ pe hrest ?_ ch hch
          intro _
          exact ⟨by omega, by omega, by omega⟩
        · simp only [if_neg hce] at hch
          have hne : cur ≠ [] := by simpa [List.isEmpty_iff] using hce
          have hc := hcur hne
          refine ih _ _ _ pe hrest ?_ ch hch
          intro _
          exact ⟨by omega, by omega, by omega⟩
      · rw [if_neg hfits] at hch
        have hemitted : ∀ ch' ∈ (if cur.isEmpty then ([] : List ChunkSpan)
            else [⟨cur, curS, curE⟩]),
            ch'.start_pos < ch'.end_pos ∧ ch'.end_pos ≤ content.length := by
          intro ch' hch'
          by_cases hce : cur.isEmpty
          · rw [if_pos hce] at hch'; simp at hch'
          · rw [if_neg hce] at hch'
            have hne : cur ≠ [] := by simpa [List.isEmpty_iff] using hce
            have := hcur hne
            simp only [List.mem_singleton] at hch'
            subst hch'
            exact ⟨this.1, this.2.1⟩
        by_cases hsmall : (py_strip (py_slice content ps pe)).length ≤ chunk_size
        · rw [if_pos hsmall] at hch
          rcases List.mem_append.mp hch with hch1 | hch2
          · exact hemitted ch hch1
          · refine ih _ _ _ pe hrest ?_ ch hch2
            intro _
            exact ⟨by omega, by omega, by omega⟩
        · rw [if_neg hsmall] at hch
          rcases List.mem_append.mp hch with hch12 | hch4
          · rcases List.mem_append.mp hch12 with hch1 | hch3
            · exact hemitted ch hch1
            · exact inner_loop_bounds hcs (by omega) _ _ ch hch3
          · refine ih _ _ _ pe hrest ?_ ch hch4
            intro hne
            exact absurd rfl hne


/-- C3 (amended): for every chunk emitted by the chunker (with
`chunk_size ≥ 1`), `0 ≤ start_pos < end_pos ≤ len(content)`.  The content
clause of the original claim must additionally allow the divergence caused
by the whitespace stripped from each paragraph: positions are computed as
the paragraph region's start plus the stripped length, so
`content[start_pos:end_pos]` can differ from the chunk text by stripped
edge whitespace (not only by the `"\n\n"` joiners). -/
theorem chunk_document_position_bounds (chunk_size chunk_overlap : Nat) (content : List Char)
    (hcs : 1 ≤ chunk_size) :
    ∀ ch ∈ chunk_document chunk_size chunk_overlap content,
      ch.start_pos < ch.end_pos ∧ ch.end_pos ≤ content.length := by
  intro ch hch
  simp only [chunk_document] at hch
  by_cases hc : ((accum_loop chunk_size chunk_overlap content
      (paragraph_positions content) [] 0 0).isEmpty && !(py_strip content).isEmpty) = true
  · rw [if_pos hc] at hch
    simp only [List.mem_singleton] at hch
    subst hch
    have hnil : py_strip content ≠ [] := by
      have := (Bool.and_eq_true _ _).mp hc
      simpa [List.isEmpty_iff] using this.2
    exact ⟨by simpa using List.length_pos.mpr hnil, by simpa using py_strip_length_le content⟩
  · rw [if_neg hc] at hch
    exact accum_loop_bounds hcs (paragraph_positions content) [] 0 0 0
      (paragraph_positions_ok content) (fun hne => absurd rfl hne) ch hch

/-- C3 counterexample: on content `" a"` (one paragraph with leading
whitespace, no joiners involved) the chunker emits the single chunk
`("a", 0, 1)`, but `content[0:1] = " " ≠ "a"`: the chunk text is not
substring-equal to `content[start_pos:end_pos]`, and the divergence is
whitespace stripping, not a paragraph joiner. -/
theorem chunk_document_not_substring :
    chunk_document 500 100 (" a".data) = [⟨['a'], 0, 1⟩] ∧
    py_slice (" a".data) 0 1 = [' '] ∧ (['a'] : List Char) ≠ [' '] := by
  decide

/-- Witness for C3 on content `" a"` with the default parameters. -/
theorem chunk_document_position_bounds_witness :
    (0 : Nat) < 1 ∧ 1 ≤ (" a".data).length :=
  chunk_document_position_bounds 500 100 (" a".data) (by decide) ⟨['a'], 0, 1⟩ (by decide)

/-! ### Store documents and the in-memory index -/

/-- Model of `Document` from store.py: a stored document row.  `updated_at` is a
`Nat` timestamp (the wall clock is an explicit input in this model). -/
structure Document where
  id : Option Nat
  source_name : String
  source_url : String
  doc_url : String
  title : Option String
  content : List Char
  content_hash : String
  updated_at : Nat
deriving DecidableEq, Repr

/-- Model of `DocumentChunk` from indexer.py. -/
structure DocumentChunk where
  id : Option Nat
  doc_id : Option Nat
  doc_url : String
  source_name : String
  source_url : String
  title : Option String
  content : List Char
  start_pos : Nat
  end_pos : Nat
deriving DecidableEq, Repr

/-- Model of `BM25Index._create_chunk` (indexer.py lines 282-305). -/
def create_chunk (doc : Document) (content : List Char) (start_pos end_pos : Nat) :
    DocumentChunk :=
  ⟨none, doc.id, doc.doc_url, doc.source_name, doc.source_url, doc.title,
    content, start_pos, end_pos⟩

/-- Model of `BM25Index._chunk_document` applied to one document: the chunk spans of
`chunk_document` wrapped with the document's metadata. -/
def chunk_document_for (chunk_size chunk_overlap : Nat) (doc : Document) :
    List DocumentChunk :=
  (chunk_document chunk_size chunk_overlap doc.content).map
    (fun sp => create_chunk doc sp.content sp.start_pos sp.end_pos)

/-- Model of `BM25Index.build_index` (indexer.py lines 391-408), restricted to the
chunk list it rebuilds (`self._chunks`); the BM25 table over the tokenised
chunks lives in the external `rank_bm25` library and is modelled by the
score vectors taken as inputs of `search_model`. -/
def build_index (chunk_size chunk_overlap : Nat) (documents : List Document) :
    List DocumentChunk :=
  (documents.map (chunk_document_for chunk_size chunk_overlap)).flatten

/-- Model of `BM25Index.document_count` (indexer.py lines 508-514): `0` when there
are no chunks, else the number of distinct `doc_url` values among chunks. -/
def document_count (chunks : List DocumentChunk) : Nat :=
  if chunks.isEmpty then 0 else (chunks.map (·.doc_url)).dedup.length

/-! ### Whitespace-only documents produce no chunks -/

lemma py_strip_eq_nil_iff {l : List Char} :
    py_strip l = [] ↔ ∀ c ∈ l, pyIsSpace c = true := by
  constructor
  · intro h c hc
    unfold py_strip at h
    rw [List.reverse_eq_nil_iff] at h
    rw [List.dropWhile_eq_nil_iff] at h
    have h2 : ∀ c ∈ l.dropWhile pyIsSpace, pyIsSpace c = true := by
      intro c' hc'
      exact h c' (by simpa using hc')
    have h3 : ∀ c ∈ l.takeWhile pyIsSpace, pyIsSpace c = true :=
      fun c' hc' => List.mem_takeWhile_imp hc'
    rw [← List.takeWhile_append_dropWhile (p := pyIsSpace) (l := l)] at hc
    rcases List.mem_append.mp hc with h4 | h4
    · exact h3 c h4
    · exact h2 c h4
  · intro h
    unfold py_strip
    have h1 : l.dropWhile pyIsSpace = [] := List.dropWhile_eq_nil_iff.mpr h
    simp [h1]

lemma py_strip_slice_eq_nil {content : List Char} (h : py_strip content = [])
    (a b : Nat) : py_strip (py_slice content a b) = [] := by
  rw [py_strip_eq_nil_iff] at h ⊢
  intro c hc
  unfold py_slice at hc
  exact h c (List.mem_of_mem_drop (List.mem_of_mem_take hc))

lemma accum_loop_all_ws {chunk_size chunk_overlap : Nat} {content : List Char}
    (h : py_strip content = []) :
    ∀ paras : List (Nat × Nat),
      accum_loop chunk_size chunk_overlap content paras [] 0 0 = []
  | [] => by simp [accum_loop]
  | (ps, pe) :: rest => by
    have hp : py_strip (py_slice content ps pe) = [] := py_strip_slice_eq_nil h ps pe
    simp only [accum_loop, hp, List.isEmpty_nil, if_pos]
    exact accum_loop_all_ws h rest

lemma chunk_document_all_ws {chunk_size chunk_overlap : Nat} {content : List Char}
    (h : py_strip content = []) :
    chunk_document chunk_size chunk_overlap content = [] := by
  unfold chunk_document
  rw [accum_loop_all_ws h]
  simp [h]

/-- C10: `document_count` after `build_index` is the number of distinct
`doc_url` values among the produced chunks, and the built chunk list is
unchanged when documents whose content strips to empty (whitespace-only or
empty) are removed from the input: such documents yield zero chunks and are
therefore excluded from the count (and hence from the `indexed_documents`
figure of a refresh, which is `document_count` of the rebuilt index). -/
theorem document_count_distinct_urls (chunk_size chunk_overlap : Nat)
    (documents : List Document) :
    document_count (build_index chunk_size chunk_overlap documents) =
      ((build_index chunk_size chunk_overlap documents).map (·.doc_url)).dedup.length ∧
    build_index chunk_size chunk_overlap documents =
      build_index chunk_size chunk_overlap
        (documents.filter (fun d => !(py_strip d.content).isEmpty)) := by
  constructor
  · unfold document_count
    by_cases h : (build_index chunk_size chunk_overlap documents).isEmpty
    · rw [if_pos h]
      rw [List.isEmpty_iff] at h
      rw [h]
      simp
    · rw [if_neg h]
  · induction documents with
    | nil => simp [build_index]
    | cons d rest ih =>
      simp only [build_index, List.map_cons, List.flatten_cons] at ih ⊢
      by_cases hd : (py_strip d.content).isEmpty
      · have hnil : chunk_document_for chunk_size chunk_overlap d = [] := by
          unfold chunk_document_for
          rw [chunk_document_all_ws (List.isEmpty_iff.mp hd)]
          rfl
        rw [List.filter_cons_of_neg (by simp [hd])]
        simp only [hnil, List.nil_append]
        exact ih
      · rw [List.filter_cons_of_pos (by simp [hd])]
        simp only [List.map_cons, List.flatten_cons]
        rw [ih]

/-! ### Store operations (store.py), over a row-list model of the
`documents` table; SHA-256 (`_compute_hash`) is the explicit `hashF`
parameter and `datetime.now()` the explicit `now` input. -/

/-- Model of `DocumentStore.upsert_document` (store.py lines 175-262): find the row
with this `doc_url`; if found and the stored hash differs, overwrite every
non-key field; if found and the hash matches, update only `updated_at`;
else insert a fresh row.  Returns the new table and the returned
`Document` value. -/
def upsert_document (hashF : List Char → String) (db : List Document)
    (source_name source_url doc_url : String) (title : Option String)
    (content : List Char) (now : Nat) : List Document × Document :=
  let content_hash := hashF content
  match db.find? (fun r => r.doc_url == doc_url) with
  | some row =>
    let db' :=
      if row.content_hash ≠ content_hash then
        db.map (fun r => if r.id == row.id then
          ⟨r.id, source_name, source_url, r.doc_url, title, content, content_hash, now⟩
          else r)
      else
        db.map (fun r => if r.id == row.id then
          ⟨r.id, r.source_name, r.source_url, r.doc_url, r.title, r.content, r.content_hash, now⟩
          else r)
    (db', ⟨row.id, source_name, source_url, doc_url, title, content, content_hash, now⟩)
  | none =>
    let newId := (db.map (fun r => r.id.getD 0)).foldl max 0 + 1
    let newDoc : Document :=
      ⟨some newId, source_name, source_url, doc_url, title, content, content_hash, now⟩
    (db ++ [newDoc], newDoc)

/-- Model of `DocumentStore.delete_stale_documents` (store.py lines 302-333): with an
empty valid set, delete every row of the source; otherwise delete the rows
whose `doc_url` is stale.  Returns the new table and the deleted count. -/
def delete_stale_documents (db : List Document) (source_name : String)
    (valid_urls : List String) : List Document × Nat :=
  if valid_urls.isEmpty then
    let count := (db.filter (fun r => r.source_name == source_name)).length
    (db.filter (fun r => !(r.source_name == source_name)), count)
  else
    let current := (db.filter (fun r => r.source_name == source_name)).map (fun r => r.doc_url)
    let stale := current.filter (fun u => !(valid_urls.contains u))
    (db.filter (fun r => !(stale.contains r.doc_url)), stale.length)

lemma map_id_of_ne {row : Document} (f : Document → Document) :
    ∀ {l : List Document}, (∀ r ∈ l, r.id ≠ row.id) →
      l.map (fun r => if r.id == row.id then f r else r) = l
  | [], _ => rfl
  | r :: rest, h => by
    have hr : r.id ≠ row.id := h r (List.mem_cons_self r rest)
    have hbeq : (r.id == row.id) = false := by
      simpa using hr
    simp only [List.map_cons, hbeq, Bool.false_eq_true, if_false]
    rw [map_id_of_ne f (fun r' hr' => h r' (List.mem_cons_of_mem r hr'))]

/-- C6: upserting an already-stored `doc_url` whose (hash of the) new
content equals the stored `content_hash` rewrites only `updated_at`
(content, title, source fields and hash stay byte-identical), setting it to
the current clock — a strict increase given an advancing clock; if the hash
differs, every non-key field of the row is overwritten with the new values.
Other rows are untouched in both cases. -/
theorem upsert_document_frame (hashF : List Char → String) (row : Document)
    (rest : List Document) (source_name source_url : String) (title : Option String)
    (content : List Char) (now : Nat)
    (hid : ∀ r ∈ rest, r.id ≠ row.id)
    (hnow : row.updated_at < now) :
    (hashF content = row.content_hash →
      (upsert_document hashF (row :: rest) source_name source_url row.doc_url
          title content now).1 =
        (⟨row.id, row.source_name, row.source_url, row.doc_url, row.title, row.content,
          row.content_hash, now⟩ : Document) :: rest ∧
        row.updated_at < now) ∧
    (hashF content ≠ row.content_hash →
      (upsert_document hashF (row :: rest) source_name source_url row.doc_url
          title content now).1 =
        (⟨row.id, source_name, source_url, row.doc_url, title, content,
          hashF content, now⟩ : Document) :: rest) := by
  have hfind : (row :: rest).find? (fun r => r.doc_url == row.doc_url) = some row := by
    simp [List.find?]
  constructor
  · intro hhash
    have hne : ¬ row.content_hash ≠ hashF content := by
      simp [hhash]
    refine ⟨?_, hnow⟩
    simp only [upsert_document, hfind, if_neg hne, List.map_cons, beq_self_eq_true, if_pos]
    rw [map_id_of_ne _ hid]
  · intro hhash
    have hne : row.content_hash ≠ hashF content := fun h => hhash h.symm
    simp only [upsert_document, hfind, if_pos hne, List.map_cons, beq_self_eq_true, if_pos]
    rw [map_id_of_ne _ hid]

/-- Witness for C6 (identical-hash case) on a one-row store. -/
theorem upsert_document_frame_witness :
    (upsert_document (fun _ => "h") [⟨some 1, "s", "su", "u", none, ['a'], "h", 0⟩]
        "s2" "su2" "u" (some "t") ['a'] 1).1 =
      [⟨some 1, "s", "su", "u", none, ['a'], "h", 1⟩] ∧ (0 : Nat) < 1 :=
  (upsert_document_frame (fun _ => "h") ⟨some 1, "s", "su", "u", none, ['a'], "h", 0⟩ []
    "s2" "su2" (some "t") ['a'] 1 (by simp) (by decide)).1 rfl

/-! ### The shadow-database refresh (refresh.py) -/

/-- A configured source (config.py `Source`): `(name, url)`. -/
structure SourceCfg where
  name : String
  url : String
deriving DecidableEq, Repr

/-- Model of `FetchedDocument` from fetcher.py. -/
structure FetchedDocument where
  url : String
  title : Option String
  content : List Char
deriving DecidableEq, Repr

/-- The state visible to readers and to the refresh: the contents of the
primary database file `db_path` (read by every tool through `app.store`),
the contents of the shadow file `db_path + ".tmp"` while it exists, and the
in-memory index chunk list. -/
structure SysState where
  primary : List Document
  temp : Option (List Document)
  indexChunks : List DocumentChunk
deriving DecidableEq, Repr

/-- One primitive step of `do_refresh` (refresh.py lines 188-217): copying
the primary into the shadow file, one `upsert_document` or
`delete_stale_documents` against the shadow store, the atomic
`os.replace` swap, or the index rebuild from the new primary. -/
inductive RStep where
  | copy : RStep
  | upsert (source_name source_url doc_url : String) (title : Option String)
      (content : List Char) : RStep
  | reap (source_name : String) (valid_urls : List String) : RStep
  | swap : RStep
  | rebuild : RStep
deriving DecidableEq, Repr

/-- Effect of one refresh step on the system state.  Only `swap` touches the
primary database; `upsert` and `reap` write to the shadow copy, `rebuild`
only replaces the in-memory chunks. -/
def apply_step (hashF : List Char → String) (chunk_size chunk_overlap now : Nat)
    (st : SysState) : RStep → SysState
  | .copy => ⟨st.primary, some st.primary, st.indexChunks⟩
  | .upsert sn su du t c =>
    ⟨st.primary,
      some (upsert_document hashF (st.temp.getD []) sn su du t c now).1,
      st.indexChunks⟩
  | .reap sn valid =>
    ⟨st.primary, some (delete_stale_documents (st.temp.getD []) sn valid).1, st.indexChunks⟩
  | .swap => ⟨st.temp.getD st.primary, none, st.indexChunks⟩
  | .rebuild => ⟨st.primary, st.temp,
      build_index chunk_size chunk_overlap st.primary⟩

/-- The write steps of `_write_source_to_store` (refresh.py lines 84-134)
for one source: upsert every fetched document, then reap the stale ones
against the set of successfully fetched urls. -/
def source_write_steps (source : SourceCfg) (docs : List FetchedDocument) : List RStep :=
  docs.map (fun d => RStep.upsert source.name source.url d.url d.title d.content)
    ++ [RStep.reap source.name (docs.map (fun d => d.url))]

/-- The full step sequence of a lock-acquired shadow refresh
(refresh.py `do_refresh`, phases 2-4): copy, per-source writes to the
shadow store, atomic swap, index rebuild. -/
def refresh_steps (fetched : List (SourceCfg × List FetchedDocument)) : List RStep :=
  RStep.copy :: ((fetched.map (fun p => source_write_steps p.1 p.2)).flatten
    ++ [RStep.swap, RStep.rebuild])

/-- Run a list of refresh steps from a state. -/
def run_steps (hashF : List Char → String) (chunk_size chunk_overlap now : Nat)
    (st : SysState) (steps : List RStep) : SysState :=
  steps.foldl (apply_step hashF chunk_size chunk_overlap now) st

lemma apply_step_primary_of_ne_swap {hashF : List Char → String}
    {chunk_size chunk_overlap now : Nat} {st : SysState} {step : RStep}
    (h : step ≠ RStep.swap) :
    (apply_step hashF chunk_size chunk_overlap now st step).primary = st.primary := by
  cases step with
  | copy => rfl
  | upsert sn su du t c => rfl
  | reap sn valid => rfl
  | swap => exact absurd rfl h
  | rebuild => rfl

lemma run_steps_primary_of_no_swap {hashF : List Char → String}
    {chunk_size chunk_overlap now : Nat} :
    ∀ {steps : List RStep} {st : SysState}, (∀ s ∈ steps, s ≠ RStep.swap) →
      (run_steps hashF chunk_size chunk_overlap now st steps).primary = st.primary
  | [], st, _ => rfl
  | step :: rest, st, h => by
    have h1 : run_steps hashF chunk_size chunk_overlap now st (step :: rest) =
        run_steps hashF chunk_size chunk_overlap now
          (apply_step hashF chunk_size chunk_overlap now st step) rest := rfl
    rw [h1, run_steps_primary_of_no_swap (fun s hs => h s (List.mem_cons_of_mem step hs))]
    exact apply_step_primary_of_ne_swap (h step (List.mem_cons_self step rest))

lemma write_steps_no_swap (fetched : List (SourceCfg × List FetchedDocument)) :
    ∀ s ∈ (fetched.map (fun p => source_write_steps p.1 p.2)).flatten, s ≠ RStep.swap := by
  intro s hs
  rw [List.mem_flatten] at hs
  obtain ⟨l, hl, hsl⟩ := hs
  rw [List.mem_map] at hl
  obtain ⟨p, _, rfl⟩ := hl
  unfold source_write_steps at hsl
  rcases List.mem_append.mp hsl with h1 | h1
  · rw [List.mem_map] at h1
    obtain ⟨d, _, rfl⟩ := h1
    intro hc
    exact absurd hc (by simp)
  · simp only [List.mem_singleton] at h1
    subst h1
    intro hc
    exact absurd hc (by simp)

/-- C1: shadow-database atomicity: along the step trace of a completed
shadow refresh, the primary database observed by a concurrent reader after
any number `k` of completed steps is either the pre-refresh primary or the
final (post-swap) primary — upserts and reaps happen on the shadow store
only, and the single `swap` step installs all of them at once, so no prefix
of the trace exposes some upserts without the others. -/
theorem shadow_refresh_atomic (hashF : List Char → String)
    (chunk_size chunk_overlap now : Nat) (st : SysState)
    (fetched : List (SourceCfg × List FetchedDocument)) (k : Nat) :
    (run_steps hashF chunk_size chunk_overlap now st
        ((refresh_steps fetched).take k)).primary = st.primary ∨
    (run_steps hashF chunk_size chunk_overlap now st
        ((refresh_steps fetched).take k)).primary =
      (run_steps hashF chunk_size chunk_overlap now st (refresh_steps fetched)).primary := by
  have hpre : refresh_steps fetched =
      (RStep.copy :: (fetched.map (fun p => source_write_steps p.1 p.2)).flatten)
        ++ [RStep.swap, RStep.rebuild] := by
    simp [refresh_steps]
  set pre := RStep.copy :: (fetched.map (fun p => source_write_steps p.1 p.2)).flatten with hpredef
  have hprens : ∀ s ∈ pre, s ≠ RStep.swap := by
    intro s hs
    rcases List.mem_cons.mp hs with rfl | hs'
    · intro hc; exact absurd hc (by simp)
    · exact write_steps_no_swap fetched s hs'
  by_cases hk : k ≤ pre.length
  · left
    rw [hpre, List.take_append_of_le_length hk]
    exact run_steps_primary_of_no_swap
      (fun s hs => hprens s (List.mem_of_mem_take hs))
  · right
    rw [hpre]
    rw [List.take_append_eq_append_take]
    rw [List.take_of_length_le (by omega)]
    have hrun : ∀ tail : List RStep,
        run_steps hashF chunk_size chunk_overlap now st (pre ++ tail) =
          run_steps hashF chunk_size chunk_overlap now
            (run_steps hashF chunk_size chunk_overlap now st pre) tail := by
      intro tail
      simp [run_steps, List.foldl_append]
    rw [hrun, hrun]
    set stPre := run_steps hashF chunk_size chunk_overlap now st pre
    have hfull : (run_steps hashF chunk_size chunk_overlap now stPre
        [RStep.swap, RStep.rebuild]).primary =
        (apply_step hashF chunk_size chunk_overlap now stPre RStep.swap).primary := by
      simp only [run_steps, List.foldl_cons, List.foldl_nil]
      exact apply_step_primary_of_ne_swap (by simp)
    rcases Nat.lt_or_ge (k - pre.length) 2 with h2 | h2
    · have h1 : k - pre.length = 1 := by omega
      rw [h1]
      simp only [List.take_succ_cons, List.take_zero]
      rw [hfull]
      simp [run_steps]
    · rw [List.take_of_length_le (by simp; omega)]


/-- Model of `SourceRefreshStats` from models.py. -/
structure SourceRefreshStats where
  name : String
  url : String
  doc_count : Nat
  errors : Nat
deriving DecidableEq, Repr

/-- Model of `RefreshResult` from models.py. -/
structure RefreshResult where
  refreshed_count : Nat
  indexed_documents : Nat
  indexed_chunks : Nat
  sources : List SourceRefreshStats
  errors : Option (List String)
  skipped : Bool
  reason : Option String
deriving DecidableEq, Repr

/-- Python `needle in hay` on strings. -/
def str_contains (hay needle : List Char) : Bool :=
  (List.range (hay.length + 1)).any (fun i => matchesAt hay needle i)

/-- Model of `do_refresh` (refresh.py lines 148-225) after the fetch phase, as a
function of the fetched data `(source, documents, source_errors)` and of
whether the non-blocking cross-process file lock was acquired.  When the
lock is held elsewhere it returns the skipped result with the current index
counts and leaves the state untouched; otherwise it runs the shadow-write /
swap / rebuild step sequence and reports the totals. -/
def do_refresh (hashF : List Char → String) (chunk_size chunk_overlap now : Nat)
    (st : SysState) (fetched : List (SourceCfg × List FetchedDocument × List String))
    (lock_acquired : Bool) : RefreshResult × SysState :=
  if !lock_acquired then
    (⟨0, document_count st.indexChunks, st.indexChunks.length, [], none, true,
      some "Refresh locked by another instance"⟩, st)
  else
    let all_errors := (fetched.map (fun p => p.2.2)).flatten
    let final := run_steps hashF chunk_size chunk_overlap now st
      (refresh_steps (fetched.map (fun p => (p.1, p.2.1))))
    let source_stats := fetched.map (fun p =>
      SourceRefreshStats.mk p.1.name p.1.url p.2.1.length
        ((p.2.2.filter (fun e => str_contains e.data p.1.url.data)).length))
    (⟨(fetched.map (fun p => p.2.1.length)).sum,
      document_count final.indexChunks, final.indexChunks.length, source_stats,
      if all_errors.isEmpty then none else some all_errors, false, none⟩, final)

/-- C7: a refresh requested while another instance holds the
cross-process lock returns `skipped = true`, `refreshed_count = 0`, the
reason string `"Refresh locked by another instance"`, the current index
counts, no per-source stats and no errors, and leaves the store and index
state unchanged. -/
theorem refresh_locked_skips (hashF : List Char → String)
    (chunk_size chunk_overlap now : Nat) (st : SysState)
    (fetched : List (SourceCfg × List FetchedDocument × List String)) :
    do_refresh hashF chunk_size chunk_overlap now st fetched false =
      (⟨0, document_count st.indexChunks, st.indexChunks.length, [], none, true,
        some "Refresh locked by another instance"⟩, st) := rfl

/-! ### Two-stage search (`BM25Index.search`, indexer.py lines 442-506)

BM25 scores come from the external `rank_bm25` library
(`self._index.get_scores(query_tokens)`) and are modelled as an explicit
rational score vector aligned with the chunk list; the FTS candidate chunk
ids from DuckDB (`store.get_fts_candidates`), already projected through
`chunk_id_map` to index positions, are modelled as an optional list of
positions (`none` = FTS disabled / unavailable / no candidates, in which
case the source falls back to all chunks). -/

/-- Model of `SearchResult` from indexer.py. -/
structure SearchResult where
  doc_url : String
  source_name : String
  source_url : String
  title : Option String
  snippet : List Char
  score : ℚ
deriving DecidableEq, Repr

/-- Build one result from the winning chunk (indexer.py lines 488-501):
snippet is the first 200 characters, with `"..."` appended iff the chunk
content is longer than 200. -/
def mk_search_result (c : DocumentChunk) (score : ℚ) : SearchResult :=
  let snippet := c.content.take 200
  ⟨c.doc_url, c.source_name, c.source_url, c.title,
    if 200 < c.content.length then snippet ++ "...".data else snippet, score⟩

/-- Stable insertion of one scored chunk into a descending-sorted list:
placed before the first strictly smaller score, after equal ones. -/
def ins_desc (x : DocumentChunk × ℚ) : List (DocumentChunk × ℚ) → List (DocumentChunk × ℚ)
  | [] => [x]
  | y :: ys => if y.2 < x.2 then x :: y :: ys else y :: ins_desc x ys

/-- Python `scored_chunks.sort(key=score, reverse=True)`: a stable
descending sort. -/
def sort_desc (l : List (DocumentChunk × ℚ)) : List (DocumentChunk × ℚ) :=
  l.foldl (fun acc x => ins_desc x acc) []

/-- The result-collection loop of `search` (indexer.py lines 478-504):
skip chunks failing the source filter, emit at most one result per
`doc_url`, stop once `limit` results are collected. -/
def collect_results (source_filter : Option String) (limit : Nat) :
    List (DocumentChunk × ℚ) → List String → List SearchResult → List SearchResult
  | [], _, results => results
  | (c, score) :: rest, seen, results =>
    if (match source_filter with
        | some f => !(c.source_name == f)
        | none => false) then
      collect_results source_filter limit rest seen results
    else if seen.contains c.doc_url then
      collect_results source_filter limit rest seen results
    else
      let results' := results ++ [mk_search_result c score]
      if limit ≤ results'.length then results'
      else collect_results source_filter limit rest (c.doc_url :: seen) results'

/-- Model of `BM25Index.search`: empty-index and empty-query guards, Stage-1
candidate restriction (or fallback to all chunks), positive-score filter,
stable descending sort, then per-document deduplicated collection. -/
def search_model (chunks : List DocumentChunk) (scores : List ℚ)
    (query_tokens : List (List Char)) (candidates : Option (List Nat)) (limit : Nat)
    (source_filter : Option String) : List SearchResult :=
  if chunks.isEmpty then []
  else if query_tokens.isEmpty then []
  else
    let zipped := chunks.zip scores
    let scored :=
      match candidates with
      | some cands => (cands.filterMap (fun i => zipped.get? i)).filter (fun p => 0 < p.2)
      | none => zipped.filter (fun p => 0 < p.2)
    collect_results source_filter limit (sort_desc scored) [] []

lemma mem_ins_desc {x y : DocumentChunk × ℚ} :
    ∀ {l : List (DocumentChunk × ℚ)}, x ∈ ins_desc y l ↔ x = y ∨ x ∈ l
  | [] => by simp [ins_desc]
  | z :: zs => by
    unfold ins_desc
    by_cases h : z.2 < y.2
    · simp [h]
    · simp only [if_neg h, List.mem_cons]
      rw [mem_ins_desc (l := zs)]
      tauto

lemma mem_sort_desc_aux {x : DocumentChunk × ℚ} :
    ∀ (l acc : List (DocumentChunk × ℚ)),
      (x ∈ l.foldl (fun a b => ins_desc b a) acc ↔ x ∈ l ∨ x ∈ acc)
  | [], acc => by simp
  | y :: ys, acc => by
    rw [List.foldl_cons, mem_sort_desc_aux ys (ins_desc y acc), mem_ins_desc]
    simp [List.mem_cons]
    tauto

lemma mem_sort_desc {x : DocumentChunk × ℚ} {l : List (DocumentChunk × ℚ)} :
    x ∈ sort_desc l ↔ x ∈ l := by
  unfold sort_desc
  rw [mem_sort_desc_aux l []]
  simp

lemma length_ins_desc (x : DocumentChunk × ℚ) :
    ∀ l : List (DocumentChunk × ℚ), (ins_desc x l).length = l.length + 1
  | [] => rfl
  | y :: ys => by
    unfold ins_desc
    by_cases h : y.2 < x.2
    · simp [h]
    · simp only [if_neg h, List.length_cons, length_ins_desc x ys]

lemma length_sort_desc_aux :
    ∀ (l acc : List (DocumentChunk × ℚ)),
      (l.foldl (fun a b => ins_desc b a) acc).length = l.length + acc.length
  | [], acc => by simp
  | y :: ys, acc => by
    rw [List.foldl_cons, length_sort_desc_aux ys (ins_desc y acc), length_ins_desc]
    simp [List.length_cons]
    omega

lemma length_sort_desc (l : List (DocumentChunk × ℚ)) :
    (sort_desc l).length = l.length := by
  unfold sort_desc
  rw [length_sort_desc_aux l []]
  rfl

lemma mem_collect_results {r : SearchResult} {source_filter : Option String} {limit : Nat} :
    ∀ {l : List (DocumentChunk × ℚ)} {seen : List String} {res : List SearchResult},
      r ∈ collect_results source_filter limit l seen res →
      r ∈ res ∨ ∃ p ∈ l, r = mk_search_result p.1 p.2
  | [], seen, res, h => Or.inl h
  | (c, score) :: rest, seen, res, h => by
    simp only [collect_results] at h
    split at h
    · rcases mem_collect_results h with h1 | ⟨p, hp, hr⟩
      · exact Or.inl h1
      · exact Or.inr ⟨p, List.mem_cons_of_mem _ hp, hr⟩
    · split at h
      · rcases mem_collect_results h with h1 | ⟨p, hp, hr⟩
        · exact Or.inl h1
        · exact Or.inr ⟨p, List.mem_cons_of_mem _ hp, hr⟩
      · split at h
        · rcases List.mem_append.mp h with h1 | h1
          · exact Or.inl h1
          · simp only [List.mem_singleton] at h1
            exact Or.inr ⟨(c, score), List.mem_cons_self _ _, h1⟩
        · rcases mem_collect_results h with h1 | ⟨p, hp, hr⟩
          · rcases List.mem_append.mp h1 with h2 | h2
            · exact Or.inl h2
            · simp only [List.mem_singleton] at h2
              exact Or.inr ⟨(c, score), List.mem_cons_self _ _, h2⟩
          · exact Or.inr ⟨p, List.mem_cons_of_mem _ hp, hr⟩

lemma collect_results_complete {limit : Nat} :
    ∀ (l : List (DocumentChunk × ℚ)) (seen : List String) (res : List SearchResult)
      (d : String),
      res.length + l.length ≤ limit →
      ((∃ p ∈ l, p.1.doc_url = d ∧ seen.contains d = false) ∨ ∃ r ∈ res, r.doc_url = d) →
      ∃ r ∈ collect_results none limit l seen res, r.doc_url = d
  | [], seen, res, d, hlen, hd => by
    rcases hd with ⟨p, hp, _⟩ | hd
    · exact absurd hp (List.not_mem_nil p)
    · simpa [collect_results] using hd
  | (c, score) :: rest, seen, res, d, hlen, hd => by
    simp only [collect_results]
    by_cases hs : seen.contains c.doc_url
    · rw [if_pos hs]
      refine collect_results_complete rest seen res d (by simp at hlen ⊢; omega) ?_
      rcases hd with ⟨p, hp, hpd, hseen⟩ | hd
      · rcases List.mem_cons.mp hp with rfl | hp'
        · rw [hpd] at hs
          rw [hs] at hseen
          exact absurd hseen (by simp)
        · exact Or.inl ⟨p, hp', hpd, hseen⟩
      · exact Or.inr hd
    · rw [if_neg hs]
      by_cases hl : limit ≤ (res ++ [mk_search_result c score]).length
      · rw [if_pos hl]
        have hrest : rest = [] := by
          simp at hlen hl
          have := List.length_eq_zero.mp (by omega : rest.length = 0)
          exact this
        rcases hd with ⟨p, hp, hpd, hseen⟩ | hd
        · rcases List.mem_cons.mp hp with rfl | hp'
          · exact ⟨mk_search_result c score,
              List.mem_append.mpr (Or.inr (List.mem_singleton.mpr rfl)), hpd⟩
          · rw [hrest] at hp'
            exact absurd hp' (List.not_mem_nil p)
        · obtain ⟨r, hr, hrd⟩ := hd
          exact ⟨r, List.mem_append.mpr (Or.inl hr), hrd⟩
      · rw [if_neg hl]
        by_cases hdc : d = c.doc_url
        · refine collect_results_complete rest (c.doc_url :: seen)
            (res ++ [mk_search_result c score]) d (by simp at hlen ⊢; omega) ?_
          refine Or.inr ⟨mk_search_result c score,
            List.mem_append.mpr (Or.inr (List.mem_singleton.mpr rfl)), ?_⟩
          rw [hdc]
          rfl
        · refine collect_results_complete rest (c.doc_url :: seen)
            (res ++ [mk_search_result c score]) d (by simp at hlen ⊢; omega) ?_
          rcases hd with ⟨p, hp, hpd, hseen⟩ | hd
          · rcases List.mem_cons.mp hp with rfl | hp'
            · exact absurd hpd.symm hdc
            · refine Or.inl ⟨p, hp', hpd, ?_⟩
              simp only [List.contains_cons, Bool.or_eq_false_iff]
              refine ⟨by simpa using hdc, hseen⟩
          · obtain ⟨r, hr, hrd⟩ := hd
            exact Or.inr ⟨r, List.mem_append.mpr (Or.inl hr), hrd⟩

/-- C5 (amended): candidate narrowing introduces no document relative to
the untruncated FTS-disabled search: every result of `search` with FTS
candidates names a `doc_url` that the FTS-disabled search also returns when
its `limit` does not truncate (here `limit = number of chunks`).  With the
same finite `limit` on both sides the original subset claim fails, because
narrowing can promote a lower-ranked document into the truncated list. -/
theorem search_fts_subset_unlimited (chunks : List DocumentChunk) (scores : List ℚ)
    (query_tokens : List (List Char)) (cands : List Nat) (limit : Nat) :
    ∀ r ∈ search_model chunks scores query_tokens (some cands) limit none,
      ∃ r' ∈ search_model chunks scores query_tokens none chunks.length none,
        r'.doc_url = r.doc_url := by
  intro r hr
  unfold search_model at hr ⊢
  by_cases hc : chunks.isEmpty
  · rw [if_pos hc] at hr
    exact absurd hr (List.not_mem_nil r)
  · rw [if_neg hc] at hr ⊢
    by_cases hq : query_tokens.isEmpty
    · rw [if_pos hq] at hr
      exact absurd hr (List.not_mem_nil r)
    · rw [if_neg hq] at hr ⊢
      rcases mem_collect_results hr with h1 | ⟨p, hp, hreq⟩
      · exact absurd h1 (List.not_mem_nil r)
      · have hp1 : p ∈ (cands.filterMap (fun i => (chunks.zip scores).get? i)).filter
            (fun p => 0 < p.2) := mem_sort_desc.mp hp
        rw [List.mem_filter] at hp1
        obtain ⟨hpmem, hppos⟩ := hp1
        rw [List.mem_filterMap] at hpmem
        obtain ⟨i, _, hpi⟩ := hpmem
        have hpz : p ∈ chunks.zip scores := List.get?_mem hpi
        have hpall : p ∈ ((chunks.zip scores).filter (fun p => 0 < p.2)) :=
          List.mem_filter.mpr ⟨hpz, hppos⟩
        have hlen : (0 : Nat) + (sort_desc ((chunks.zip scores).filter
            (fun p => 0 < p.2))).length ≤ chunks.length := by
          rw [length_sort_desc]
          have h1 := List.length_filter_le (fun p : DocumentChunk × ℚ => 0 < p.2)
            (chunks.zip scores)
          have h2 : (chunks.zip scores).length ≤ chunks.length := by
            rw [List.length_zip]
            exact min_le_left _ _
          simpa using le_trans h1 h2
        obtain ⟨r', hr', hrd⟩ := collect_results_complete
          (sort_desc ((chunks.zip scores).filter (fun p => 0 < p.2))) [] [] p.1.doc_url
          hlen (Or.inl ⟨p, mem_sort_desc.mpr hpall, rfl, rfl⟩)
        refine ⟨r', hr', ?_⟩
        rw [hrd, hreq]
        rfl

/-- Witness for C5: the `"b"` result of the candidate-narrowed search (the
counterexample's data) does appear in the untruncated FTS-disabled search. -/
theorem search_fts_subset_unlimited_witness :
    ∃ r' ∈ search_model
        [⟨none, none, "a", "s", "su", none, ['x'], 0, 1⟩,
         ⟨none, none, "b", "s", "su", none, ['y'], 0, 1⟩]
        [2, 1] [['q']] none 2 none,
      r'.doc_url =
        (mk_search_result ⟨none, none, "b", "s", "su", none, ['y'], 0, 1⟩ 1).doc_url :=
  search_fts_subset_unlimited
    [⟨none, none, "a", "s", "su", none, ['x'], 0, 1⟩,
     ⟨none, none, "b", "s", "su", none, ['y'], 0, 1⟩]
    [2, 1] [['q']] [1] 1
    (mk_search_result ⟨none, none, "b", "s", "su", none, ['y'], 0, 1⟩ 1) (by decide)

/-- C5 counterexample: two single-chunk documents `"a"` (score 2) and
`"b"` (score 1), `limit = 1`: with FTS disabled the search returns `"a"`
only; with the FTS candidate stage narrowed to the `"b"` chunk it returns
`"b"`, which the FTS-disabled search did not return — the result set is not
a subset. -/
theorem search_fts_introduces_document :
    (search_model
        [⟨none, none, "a", "s", "su", none, ['x'], 0, 1⟩,
         ⟨none, none, "b", "s", "su", none, ['y'], 0, 1⟩]
        [2, 1] [['q']] (some [1]) 1 none).map (fun r => r.doc_url) = ["b"] ∧
    (search_model
        [⟨none, none, "a", "s", "su", none, ['x'], 0, 1⟩,
         ⟨none, none, "b", "s", "su", none, ['y'], 0, 1⟩]
        [2, 1] [['q']] none 1 none).map (fun r => r.doc_url) = ["a"] ∧
    ("b" : String) ≠ "a" := by
  decide

/-! ### Manifest fetching (fetcher.py) -/

/-- Model of `DocLink` from fetcher.py. -/
structure DocLink where
  title : String
  url : String
  description : Option String
deriving DecidableEq, Repr

/-- The error string of a failed per-link fetch (fetcher.py line 220). -/
def format_fetch_error (url reason : String) : String :=
  "Failed to fetch " ++ url ++ ": " ++ reason

/-- Python truthiness of an optional title (`if not result.title`):
`None` and the empty string are falsy. -/
def title_truthy : Option String → Bool
  | none => false
  | some s => !s.isEmpty

/-- The result-processing loop of `fetch_all_from_source`
(fetcher.py lines 218-229): each fetch task's outcome, paired with its
manifest link in order, either appends a formatted error or appends the
document (substituting the link title when the document has none). -/
def process_manifest_results (links : List DocLink)
    (results : List (Except String FetchedDocument)) :
    List FetchedDocument × List String :=
  (links.zip results).foldl
    (fun (acc : List FetchedDocument × List String) p =>
      match p.2 with
      | .error reason => (acc.1, acc.2 ++ [format_fetch_error p.1.url reason])
      | .ok result =>
        (acc.1 ++ [if !title_truthy result.title then
          ⟨result.url, some p.1.title, result.content⟩ else result], acc.2))
    ([], [])

lemma process_manifest_foldl :
    ∀ (pairs : List (DocLink × Except String FetchedDocument))
      (docs : List FetchedDocument) (errs : List String),
      pairs.foldl
        (fun (acc : List FetchedDocument × List String) p =>
          match p.2 with
          | .error reason => (acc.1, acc.2 ++ [format_fetch_error p.1.url reason])
          | .ok result =>
            (acc.1 ++ [if !title_truthy result.title then
              ⟨result.url, some p.1.title, result.content⟩ else result], acc.2))
        (docs, errs) =
      (docs ++ pairs.filterMap (fun p =>
          match p.2 with
          | .ok result => some (if !title_truthy result.title then
              ⟨result.url, some p.1.title, result.content⟩ else result)
          | .error _ => none),
        errs ++ pairs.filterMap (fun p =>
          match p.2 with
          | .ok _ => none
          | .error reason => some (format_fetch_error p.1.url reason)))
  | [], docs, errs => by simp
  | (link, res) :: rest, docs, errs => by
    cases res with
    | error reason =>
      rw [List.foldl_cons]
      rw [process_manifest_foldl rest docs (errs ++ [format_fetch_error link.url reason])]
      simp [List.filterMap_cons, List.append_assoc]
    | ok result =>
      rw [List.foldl_cons]
      rw [process_manifest_foldl rest
        (docs ++ [if !title_truthy result.title then
          ⟨result.url, some link.title, result.content⟩ else result]) errs]
      simp [List.filterMap_cons, List.append_assoc]

/-- C8: the documents returned for a manifest are exactly the successful
fetch outcomes in manifest-link order (entries for failed links absent, and
no successful document dropped), and the errors are exactly the per-link
failures, each formatted `"Failed to fetch <url>: <reason>"`, in manifest
order. -/
theorem fetch_manifest_ordering (links : List DocLink)
    (results : List (Except String FetchedDocument)) :
    (process_manifest_results links results).1 =
      (links.zip results).filterMap (fun p =>
        match p.2 with
        | .ok result => some (if !title_truthy result.title then
            ⟨result.url, some p.1.title, result.content⟩ else result)
        | .error _ => none) ∧
    (process_manifest_results links results).2 =
      (links.zip results).filterMap (fun p =>
        match p.2 with
        | .ok _ => none
        | .error reason => some (format_fetch_error p.1.url reason)) := by
  unfold process_manifest_results
  rw [process_manifest_foldl (links.zip results) [] []]
  exact ⟨by simp, by simp⟩

/-! ### The paginated `get_doc` tool -/

/-- Model of `DocumentResult` from models.py, with the pagination fields. -/
structure DocumentResult where
  title : String
  content : List Char
  url : String
  source : String
  source_url : String
  offset : Nat
  length : Nat
  total_length : Nat
  has_more : Bool
deriving DecidableEq, Repr

/-- Model of `DocumentStore.get_document_by_url` (store.py lines 277-300): the first
row with this `doc_url`, if any. -/
def get_document_by_url (db : List Document) (doc_url : String) : Option Document :=
  db.find? (fun r => r.doc_url == doc_url)

/-- Modelled from the spec: the paginated `get_doc(url, offset, limit)` tool
of §4.7 is absent from `src/` (the `get_doc` in server.py takes no offset or
limit; only the result model `DocumentResult` in models.py declares the
pagination fields `offset`, `length`, `total_length`, `has_more`).  Per the
spec it returns the slice `content[offset:offset+limit]` together with
`total_length`, `length`, and `has_more = (offset + length) < total_length`,
and fails NotFound when no document has that url. -/
def get_doc (db : List Document) (url : String) (offset limit : Nat) :
    Except String DocumentResult :=
  match get_document_by_url db url with
  | none => .error ("Document not found: " ++ url)
  | some doc =>
    let sliced := py_slice doc.content offset (offset + limit)
    .ok ⟨doc.title.getD "Untitled", sliced, doc.doc_url, doc.source_name, doc.source_url,
      offset, sliced.length, doc.content.length,
      decide (offset + sliced.length < doc.content.length)⟩

/-- C2: for a stored document, `get_doc(url, offset, limit)` with
`limit ∈ [1000, 100000]` returns the slice `content[offset:offset+limit]`
with `total_length = len(content)`, `length = len(slice)` and
`has_more = (offset + length) < total_length`; at `offset = total_length`
the slice is empty and `has_more = false`; and an absent url fails
NotFound. -/
theorem get_doc_pagination (db : List Document) (url : String) (offset limit : Nat)
    (h1 : 1000 ≤ limit) (h2 : limit ≤ 100000) :
    (∀ doc, get_document_by_url db url = some doc →
      get_doc db url offset limit =
        .ok ⟨doc.title.getD "Untitled", py_slice doc.content offset (offset + limit),
          doc.doc_url, doc.source_name, doc.source_url, offset,
          (py_slice doc.content offset (offset + limit)).length, doc.content.length,
          decide (offset + (py_slice doc.content offset (offset + limit)).length
            < doc.content.length)⟩) ∧
    (∀ doc, get_document_by_url db url = some doc → offset = doc.content.length →
      (py_slice doc.content offset (offset + limit)).length = 0 ∧
      decide (offset + (py_slice doc.content offset (offset + limit)).length
        < doc.content.length) = false) ∧
    (get_document_by_url db url = none →
      get_doc db url offset limit = .error ("Document not found: " ++ url)) := by
  refine ⟨?_, ?_, ?_⟩
  · intro doc hdoc
    simp [get_doc, hdoc]
  · intro doc hdoc hoff
    have hslice : py_slice doc.content offset (offset + limit) = [] := by
      unfold py_slice
      rw [hoff]
      simp [List.drop_eq_nil_of_le]
    rw [hslice]
    simp [hoff]
  · intro hdoc
    simp [get_doc, hdoc]

/-- Witness for C2 on a one-document store with content `"ab"`, queried at
`offset = total_length = 2` with `limit = 1000`. -/
theorem get_doc_pagination_witness :
    get_doc [⟨some 1, "s", "su", "u", none, "ab".data, "h", 0⟩] "u" 2 1000 =
      .ok ⟨"Untitled", [], "u", "s", "su", 2, 0, 2, false⟩ :=
  (get_doc_pagination [⟨some 1, "s", "su", "u", none, "ab".data, "h", 0⟩] "u" 2 1000
    (by decide) (by decide)).1 ⟨some 1, "s", "su", "u", none, "ab".data, "h", 0⟩ rfl

end LlmDoc
